import Mathlib

/-!
Verification of `json-to-struct.go` (gojson): a shallow embedding of its
JSON-to-Go-struct inference core, together with proofs about the claims of
the specification.

The decoded JSON value universe is the one produced by Go's
`encoding/json` when decoding into a bare `interface{}`: `nil`, `bool`,
`float64`, `string`, `[]interface{}` and `map[string]interface{}`.
A `map[string]interface{}` is modelled as an association list whose order
models the (arbitrary) iteration order of the Go map; JSON object keys are
unique, which is stated as a `Nodup` hypothesis where it matters.

Character-level operations from Go's `unicode` package (`IsLetter`,
`IsDigit`, `ToUpper`, `ToTitle`, `ToLower`) are modelled by Lean's ASCII
`Char` operations, which agree with Go on the ASCII range; `ToTitle` and
`ToUpper` agree with each other there as well.
-/

namespace GoJson

/-- A decoded JSON value, i.e. the dynamic types `encoding/json` stores in an
`interface{}`: nil, bool, float64, string, `[]interface{}`,
`map[string]interface{}`. -/
inductive JsonValue where
  | jnull : JsonValue
  | jbool (b : Bool) : JsonValue
  | jnum (x : Float) : JsonValue
  | jstr (s : String) : JsonValue
  | jarr (elems : List JsonValue) : JsonValue
  | jobj (fields : List (String × JsonValue)) : JsonValue

/-- `type Style string` from the source. -/
abbrev Style := String

/-- `StyleUnderscores Style = "underscores"` -/
def StyleUnderscores : Style := "underscores"

/-- `StyleCamelCase Style = "camelcase"` -/
def StyleCamelCase : Style := "camelcase"

/-- `StyleNone Style = "none"` -/
def StyleNone : Style := "none"

/-- The four package-level tag-style configuration variables (`jsonStyle`,
`*jsonExtra`, `bsonStyle`, `*bsonExtra`), threaded explicitly. They are set
once in `main` and never change during a generation run. -/
structure Config where
  jsonStyle : Style
  jsonExtra : String
  bsonStyle : Style
  bsonExtra : String

/-- The flag defaults: `-json-style=underscores -json-extra= -bson-style=none
-bson-extra=`. -/
def defaultConfig : Config :=
  { jsonStyle := StyleUnderscores, jsonExtra := "",
    bsonStyle := StyleNone, bsonExtra := "" }

/-! ### Character operations (Go `unicode` package, ASCII range) -/

/-- Models `unicode.ToUpper` and `unicode.ToTitle` (they agree on ASCII,
which is the range this model covers): a lower-case basic latin letter
(`'a'` is 97, `'z'` is 122) is mapped 32 code points down, everything else
is unchanged.  This is also exactly Lean's `Char.toUpper`. -/
def goToUpper (c : Char) : Char :=
  if 97 ≤ c.toNat ∧ c.toNat ≤ 122 then Char.ofNat (c.toNat - 32) else c

/-- Models `unicode.ToLower` on the ASCII range (`'A'` is 65, `'Z'` is 90);
exactly Lean's `Char.toLower`. -/
def goToLower (c : Char) : Char :=
  if 65 ≤ c.toNat ∧ c.toNat ≤ 90 then Char.ofNat (c.toNat + 32) else c

/-- Models `unicode.IsLetter` on the ASCII range: `A`-`Z` or `a`-`z`. -/
def goIsLetter (c : Char) : Bool :=
  (65 ≤ c.toNat && c.toNat ≤ 90) || (97 ≤ c.toNat && c.toNat ≤ 122)

/-- Models `unicode.IsDigit` on the ASCII range: `0`-`9` (48-57). -/
def goIsDigit (c : Char) : Bool :=
  48 ≤ c.toNat && c.toNat ≤ 57

/-- Models `strings.isSeparator` from the Go standard library (used by
`strings.Title`): within ASCII, everything except letters, digits and
underscore (95) is a separator; beyond ASCII, letters and digits are not
separators and otherwise only spaces are. -/
def isSeparator (c : Char) : Bool :=
  if c.toNat ≤ 0x7F then
    ! (goIsDigit c || goIsLetter c || c.toNat == 95)
  else if goIsLetter c || goIsDigit c then false
  else c.isWhitespace

/-! ### `strings` package operations used by the source -/

/-- Models `strings.Split(s, "_")` at the rune level: the list of chunks
between underscores.  Like Go's `Split`, the result is never empty
(`Split("", "_") = [""]`). -/
def splitUnderscore : List Char → List (List Char)
  | [] => [[]]
  | c :: rest =>
    match splitUnderscore rest with
    | part :: parts =>
      if c = '_' then [] :: part :: parts else (c :: part) :: parts
    | [] => [[]]

/-- The rune-mapping loop of `strings.Title`: `prev` starts as a space, and a
rune is title-cased exactly when the previous rune was a separator. -/
def goTitleAux (prev : Char) : List Char → List Char
  | [] => []
  | c :: rest => (if isSeparator prev then goToUpper c else c) :: goTitleAux c rest

/-- Models `strings.Title` (deprecated Go stdlib function used by the
source) on one underscore-free part. -/
def goTitle (part : List Char) : List Char := goTitleAux ' ' part

/-! ### Field naming (`fmtFieldName`, source lines 190-220) -/

/-- `var uppercaseFixups = map[string]bool{"id": true, "url": true, "dob": true}`;
a lookup of a missing key in a Go `map[string]bool` yields `false`. -/
def uppercaseFixups (s : List Char) : Bool :=
  s == "id".data || s == "url".data || s == "dob".data

/-- Lines 202-207: if there is a last part and `fixUpper` holds and the
lower-cased last part is in `uppercaseFixups`, replace the last part by its
upper-cased form.  (`len(parts) > 0` is in fact always true, since
`strings.Split` never returns an empty slice.) -/
def applyFixup (fixUpper : Bool) (parts : List (List Char)) : List (List Char) :=
  match parts.getLast? with
  | none => parts
  | some last =>
    if fixUpper && uppercaseFixups (last.map goToLower) then
      parts.dropLast ++ [last.map goToUpper]
    else parts

/-- Lines 209-218: the rune scan over the assembled name.  At index 0 only a
letter is acceptable, at later indexes letters and digits are; every
unacceptable rune is replaced by `'_'`. -/
def sanitize : List Char → List Char
  | [] => []
  | c :: rest =>
    (if goIsLetter c then c else '_') ::
      rest.map fun d => if goIsLetter d || goIsDigit d then d else '_'

/-- `fmtFieldName` (lines 197-220): split on underscores, `strings.Title`
each part, optionally upper-case a recognized final acronym, join with no
separator, then sanitize the runes. -/
def fmtFieldName (s : String) (fixUpper : Bool) : String :=
  let parts := (splitUnderscore s.data).map goTitle
  let parts := applyFixup fixUpper parts
  String.mk (sanitize parts.flatten)

/-- `lowerFirst` (lines 120-126): lower-case the first rune, keep the rest. -/
def lowerFirst (s : String) : String :=
  match s.data with
  | [] => ""
  | c :: rest => String.mk (goToLower c :: rest)

/-! ### Tag rendering (inline in `generateTypes`, lines 154-185) -/

/-- The per-format tag value: the shared shape of lines 157-165 (bson) and
173-181 (json).  `fieldName` starts empty, is set for the two non-`none`
styles, and a non-empty extra is appended after a comma. -/
def tagFieldName (style : Style) (extra : String) (key : String) : String :=
  let fieldName :=
    if style = StyleUnderscores then key
    else if style = StyleCamelCase then lowerFirst (fmtFieldName key false)
    else ""
  if extra ≠ "" then fieldName ++ "," ++ extra else fieldName

/-- Lines 156-171: the `bson:"..."` part of the tag, including the
separating space emitted when a json part follows; empty when the bson
style is `none`. -/
def bsonTagPiece (cfg : Config) (key : String) : String :=
  if cfg.bsonStyle ≠ StyleNone then
    "bson:\"" ++ tagFieldName cfg.bsonStyle cfg.bsonExtra key ++ "\"" ++
      (if cfg.jsonStyle ≠ StyleNone then " " else "")
  else ""

/-- Lines 172-183: the `json:"..."` part of the tag; empty when the json
style is `none`. -/
def jsonTagPiece (cfg : Config) (key : String) : String :=
  if cfg.jsonStyle ≠ StyleNone then
    "json:\"" ++ tagFieldName cfg.jsonStyle cfg.jsonExtra key ++ "\""
  else ""

/-- Lines 154-185: the whole backquoted tag literal appended after a field,
or the empty string when both styles are `none`. -/
def tagString (cfg : Config) (key : String) : String :=
  if cfg.jsonStyle ≠ StyleNone ∨ cfg.bsonStyle ≠ StyleNone then
    "\x60" ++ bsonTagPiece cfg key ++ jsonTagPiece cfg key ++ "\x60"
  else ""

/-! ### Runtime variant tags (`reflect.Type` of a decoded value) -/

/-- The possible results of `reflect.TypeOf` on a decoded JSON value:
`nil` (for a nil interface), `bool`, `float64`, `string`,
`[]interface {}` and `map[string]interface {}`.  Two decoded values have
equal `reflect.TypeOf` exactly when they map to the same `GoType`. -/
inductive GoType where
  | nilType | boolType | float64Type | stringType | sliceType | mapType
deriving DecidableEq

/-- `reflect.TypeOf` of a decoded JSON value, as a `GoType`. -/
def variantTag : JsonValue → GoType
  | .jnull => .nilType
  | .jbool _ => .boolType
  | .jnum _ => .float64Type
  | .jstr _ => .stringType
  | .jarr _ => .sliceType
  | .jobj _ => .mapType

/-- `reflect.TypeOf(value).Name()` for the scalar fall-through of
`typeForValue` (line 239).  Only `bool`, `float64` and `string` ever reach
that line; named types have these names, and unnamed composite types would
yield `""`. -/
def goTypeName : GoType → String
  | .boolType => "bool"
  | .float64Type => "float64"
  | .stringType => "string"
  | _ => ""

/-- What `%T` prints for a decoded value (used by the `unexpected type`
error of `generate`, line 106). -/
def goTypeString : JsonValue → String
  | .jnull => "<nil>"
  | .jbool _ => "bool"
  | .jnum _ => "float64"
  | .jstr _ => "string"
  | .jarr _ => "[]interface \x7b\x7d"
  | .jobj _ => "map[string]interface \x7b\x7d"

/-- `sort.Strings(keys)` (line 136): lexicographic ascending sort.  Go
compares strings byte-wise; on UTF-8 this coincides with the code-point
order of Lean's `String` linear order. -/
def sortStrings (keys : List String) : List String :=
  List.insertionSort (fun a b => a ≤ b) keys

/-- A value reachable by a successful `List.lookup` is structurally smaller
than the list it was found in (termination measure for `genFields`). -/
theorem sizeOf_lt_of_lookup {l : List (String × JsonValue)} {k : String}
    {v : JsonValue} (h : l.lookup k = some v) : sizeOf v < sizeOf l := by
  induction l with
  | nil => simp [List.lookup] at h
  | cons a t ih =>
    obtain ⟨k', v'⟩ := a
    rw [List.lookup_cons] at h
    split at h
    · cases h
      simp only [List.cons.sizeOf_spec, Prod.mk.sizeOf_spec]
      omega
    · have := ih h
      simp only [List.cons.sizeOf_spec, Prod.mk.sizeOf_spec]
      omega

/-! ### The type inferencer (`generateTypes`, lines 129-188, and
`typeForValue`, lines 223-240)

`generateTypes` collects the keys of the map, sorts them, and renders one
field line per key by indexing back into the map (`value := obj[key]`,
modelled by `List.lookup`); the per-key loop body is split off as
`genFields`, the recursion over the sorted key list.

Two branches of the source are unreachable for decoded JSON input and are
therefore absent from the model: the `case []map[string]interface{}` of the
nested-value switch (lines 144-145) never matches, because `encoding/json`
decodes every JSON array into a `[]interface{}`, never a
`[]map[string]interface{}`; likewise `objects[0]` on line 231 is only
reached with a non-empty array, since an empty array contributes an empty
type set so `len(types) == 1` fails. -/

mutual

/-- `typeForValue` (lines 223-240): slices recurse into their first element
when the element `reflect.Type`s are all equal (`len(types) == 1`), objects
recurse into `generateTypes` with depth restarted at `0`, nil yields
`interface{}`, and scalars yield their type name. -/
def typeForValue (cfg : Config) : JsonValue → String
  | .jarr objects =>
    let types := (objects.map variantTag).dedup
    match objects with
    | [] => "[]interface\x7b\x7d"
    | o :: _ =>
      if types.length = 1 then "[]" ++ typeForValue cfg o
      else "[]interface\x7b\x7d"
  | .jobj object => generateTypes cfg object 0 ++ "\x7d"
  | .jnull => "interface\x7b\x7d"
  | v => goTypeName (variantTag v)
termination_by v => (sizeOf v, 0, 0)
decreasing_by
  · simp_wf
    exact Prod.Lex.left _ _ (by omega)
  · simp_wf
    exact Prod.Lex.left _ _ (by omega)

/-- `generateTypes` (lines 129-188): `"struct {"` followed by one line per
key in sorted order.  The closing brace is appended by each caller. -/
def generateTypes (cfg : Config) (obj : List (String × JsonValue))
    (depth : Nat) : String :=
  "struct \x7b" ++ genFields cfg (sortStrings (obj.map Prod.fst)) obj depth
termination_by (sizeOf obj, 1, 0)
decreasing_by
  exact Prod.Lex.right _ (Prod.Lex.left _ _ Nat.zero_lt_one)

/-- The body of the `for _, key := range keys` loop of `generateTypes`
(lines 138-186): look the key up in the map, compute the value's type
(overridden with a `depth+1` recursion for a nested object), and append
`"\n<fieldName> <valueType><tag>"`. -/
def genFields (cfg : Config) : List String → List (String × JsonValue) →
    Nat → String
  | [], _, _ => ""
  | key :: rest, obj, depth =>
    (match h : obj.lookup key with
     | none => ""
     | some value =>
       let valueType := typeForValue cfg value
       let valueType :=
         match value with
         | .jobj m => generateTypes cfg m (depth + 1) ++ "\x7d"
         | _ => valueType
       "\n" ++ fmtFieldName key true ++ " " ++ valueType ++ tagString cfg key)
    ++ genFields cfg rest obj depth
termination_by keys obj _ => (sizeOf obj, 0, keys.length)
decreasing_by
  · simp_wf
    exact Prod.Lex.left _ _ (sizeOf_lt_of_lookup h)
  · simp_wf
    have hm := sizeOf_lt_of_lookup h
    simp only [JsonValue.jobj.sizeOf_spec] at hm
    exact Prod.Lex.left _ _ (by omega)
  · simp_wf
    exact Prod.Lex.right _ (Prod.Lex.right _ (by omega))

end

/-! ### The declaration assembler (`generate`, lines 89-118)

`generate` receives the already-decoded value (JSON decoding itself, line
92, is the excluded driver's concern) and the source formatter
(`go/format.Source`) as an explicit collaborator `fmtSource`, returning
either the formatted source or the error message.

The type switch on lines 96-107 has a `case []map[string]interface{}`
containing both the first-element projection and the `"empty array"`
error.  `encoding/json` decoding into an `interface{}` stores every JSON
array as a `[]interface{}` and never as a `[]map[string]interface{}`, so
for decoded input that case — and with it the `"empty array"` error — is
unreachable: every non-object value, arrays included, falls into the
`default` case and yields the `unexpected type: %T` error. -/

/-- The assembled pre-format source text (lines 109-112):
`fmt.Sprintf("package %s\ntype %s %s}", pkgName, structName, generateTypes(result, 0))`. -/
def assembleSrc (cfg : Config) (fields : List (String × JsonValue))
    (structName pkgName : String) : String :=
  "package " ++ pkgName ++ "\ntype " ++ structName ++ " " ++
    generateTypes cfg fields 0 ++ "\x7d"

/-- `generate` (lines 89-118) on a decoded value. -/
def generate (fmtSource : String → Except String String) (cfg : Config)
    (v : JsonValue) (structName pkgName : String) : Except String String :=
  match v with
  | .jobj fields =>
    let src := assembleSrc cfg fields structName pkgName
    match fmtSource src with
    | .ok formatted => .ok formatted
    | .error e =>
      .error ("error formatting: " ++ e ++ ", was formatting\n" ++ src)
  | other => .error ("unexpected type: " ++ goTypeString other)

/-- A formatter standing in for a `format.Source` call that succeeds (the
identity canonicalization); used to evaluate `generate` at inputs whose
outcome does not depend on the formatter. -/
def fmtOk : String → Except String String := fun s => .ok s

/-- A formatter standing in for a `format.Source` call that reports a
syntax failure. -/
def fmtFail : String → Except String String := fun _ => .error "syntax error"

/-! ## Claims -/

/-- Claim C1: the claim states that a non-empty top-level JSON array whose
first element is an object is accepted and treated like that first element.
The code does not do this: `json.Decode` into an `interface{}` represents
every array as a `[]interface{}`, which falls through the
`case []map[string]interface{}` into the `default` case, so `generate`
rejects `[{"a": 1}, {"a": 2}]` with the `unexpected type` error even though
the same object alone is accepted. -/
theorem claim_C1_top_level_array_rejected :
    generate fmtOk defaultConfig
        (.jarr [.jobj [("a", .jnum 1)], .jobj [("a", .jnum 2)]]) "Foo" "main" =
      .error "unexpected type: []interface \x7b\x7d" ∧
    generate fmtOk defaultConfig (.jobj [("a", .jnum 1)]) "Foo" "main" =
      .ok (assembleSrc defaultConfig [("a", .jnum 1)] "Foo" "main") := by
  constructor
  · rfl
  · simp only [generate, fmtOk]

/-- Claim C2: the claim states that a top-level empty JSON array hits the
dedicated `"empty array"` error.  The code does not: the decoded value is a
`[]interface{}`, so it falls into the `default` case and gets the same
`unexpected type` error as any other unsupported shape; the `"empty array"`
branch is unreachable for decoded input. -/
theorem claim_C2_empty_array_error :
    generate fmtOk defaultConfig (.jarr []) "Foo" "main" =
      .error "unexpected type: []interface \x7b\x7d" ∧
    ("unexpected type: []interface \x7b\x7d" : String) ≠ "empty array" := by
  exact ⟨rfl, by decide⟩

/-- Claim C7: per tag format, the underscores style renders the original
key verbatim, the camelcase style renders the field namer's identifier
(acronym fix-up disabled) with its first letter lowered (so `created_at`
becomes `createdAt`), the `none` style omits the format from the tag list,
and a non-empty configured extra is appended to the rendered name after a
comma. -/
theorem claim_C7_tag_rendering :
    (∀ key, tagFieldName StyleUnderscores "" key = key) ∧
    (∀ key, tagFieldName StyleCamelCase "" key =
      lowerFirst (fmtFieldName key false)) ∧
    tagFieldName StyleCamelCase "" "created_at" = "createdAt" ∧
    (∀ cfg key, cfg.jsonStyle = StyleNone → jsonTagPiece cfg key = "") ∧
    (∀ cfg key, cfg.bsonStyle = StyleNone → bsonTagPiece cfg key = "") ∧
    (∀ cfg key, cfg.jsonStyle = StyleNone → cfg.bsonStyle = StyleNone →
      tagString cfg key = "") ∧
    (∀ style extra key, style ≠ StyleNone → extra ≠ "" →
      tagFieldName style extra key = tagFieldName style "" key ++ "," ++ extra) := by
  refine ⟨fun key => ?_, fun key => ?_, ?_, fun cfg key h => ?_, fun cfg key h => ?_,
    fun cfg key h1 h2 => ?_, fun style extra key hs he => ?_⟩
  · simp [tagFieldName, StyleUnderscores]
  · simp [tagFieldName, StyleCamelCase, StyleUnderscores]
  · rfl
  · simp [jsonTagPiece, h]
  · simp [bsonTagPiece, h]
  · simp [tagString, h1, h2]
  · unfold tagFieldName
    rw [if_pos he]
    simp

/-- Witness for C7: the extra-suffix clause at a concrete style, extra and
key. -/
theorem claim_C7_witness :
    tagFieldName StyleUnderscores "omitempty" "created_at" =
      tagFieldName StyleUnderscores "" "created_at" ++ "," ++ "omitempty" :=
  claim_C7_tag_rendering.2.2.2.2.2.2 StyleUnderscores "omitempty" "created_at"
    (by decide) (by decide)

/-- Claim C9: whenever the formatter rejects the assembled source, the
error returned by `generate` is the formatter's diagnostic together with
the raw pre-formatted source text. -/
theorem claim_C9_formatting_error :
    ∀ (fmtSource : String → Except String String) (cfg : Config)
      (fields : List (String × JsonValue)) (structName pkgName e : String),
      fmtSource (assembleSrc cfg fields structName pkgName) = .error e →
      generate fmtSource cfg (.jobj fields) structName pkgName =
        .error ("error formatting: " ++ e ++ ", was formatting\n" ++
          assembleSrc cfg fields structName pkgName) := by
  intro fmtSource cfg fields sN pN e h
  simp only [generate]
  rw [h]

/-- Witness for C9: a formatter that fails with `syntax error` on a
concrete object yields exactly the combined message. -/
theorem claim_C9_witness :
    generate fmtFail defaultConfig (.jobj [("a", .jnum 1)]) "Foo" "main" =
      .error ("error formatting: " ++ "syntax error" ++ ", was formatting\n" ++
        assembleSrc defaultConfig [("a", .jnum 1)] "Foo" "main") :=
  claim_C9_formatting_error fmtFail defaultConfig [("a", .jnum 1)] "Foo" "main"
    "syntax error" rfl

/-- Deduplicating a list whose head equals every later element yields the
singleton head: the model of a one-entry `map[reflect.Type]bool`. -/
theorem dedup_eq_single {α : Type} [DecidableEq α] {a : α} :
    ∀ {l : List α}, (∀ x ∈ l, x = a) → (a :: l).dedup = [a] := by
  intro l
  induction l with
  | nil => intro _; simp
  | cons b t ih =>
    intro h
    have hb : b = a := h b (by simp)
    subst hb
    rw [List.dedup_cons_of_mem (by simp)]
    exact ih fun x hx => h x (by simp [hx])

/-- If deduplication leaves exactly one element, the original list was
constant. -/
theorem all_eq_of_dedup_length_one {α : Type} [DecidableEq α] {l : List α}
    (h : l.dedup.length = 1) : ∀ x ∈ l, ∀ y ∈ l, x = y := by
  obtain ⟨a, ha⟩ := List.length_eq_one.mp h
  intro x hx y hy
  have hx' : x ∈ l.dedup := List.mem_dedup.mpr hx
  have hy' : y ∈ l.dedup := List.mem_dedup.mpr hy
  rw [ha] at hx' hy'
  simp at hx' hy'
  rw [hx', hy']

/-- Claim C4: a nested empty array infers `[]interface{}`; a non-empty
array all of whose elements carry the same runtime variant tag infers a
slice of the first element's inferred type (objects with different field
sets included, since they share the `map` tag); mixed tags infer
`[]interface{}`; an all-null array infers `[]interface{}`; in particular
`[1, 2, 3]` infers `[]float64` and `[1, "a"]` infers `[]interface{}`. -/
theorem claim_C4_nested_array_inference :
    (∀ cfg, typeForValue cfg (.jarr []) = "[]interface\x7b\x7d") ∧
    (∀ cfg (o : JsonValue) (rest : List JsonValue),
      (∀ e ∈ o :: rest, variantTag e = variantTag o) →
      typeForValue cfg (.jarr (o :: rest)) = "[]" ++ typeForValue cfg o) ∧
    (∀ cfg (elems : List JsonValue) (e₁ e₂ : JsonValue),
      e₁ ∈ elems → e₂ ∈ elems → variantTag e₁ ≠ variantTag e₂ →
      typeForValue cfg (.jarr elems) = "[]interface\x7b\x7d") ∧
    (∀ cfg (elems : List JsonValue), (∀ e ∈ elems, e = JsonValue.jnull) →
      typeForValue cfg (.jarr elems) = "[]interface\x7b\x7d") ∧
    (∀ cfg, typeForValue cfg (.jarr [.jnum 1, .jnum 2, .jnum 3]) = "[]float64") ∧
    (∀ cfg, typeForValue cfg (.jarr [.jnum 1, .jstr "a"]) = "[]interface\x7b\x7d") := by
  have homog : ∀ cfg (o : JsonValue) (rest : List JsonValue),
      (∀ e ∈ o :: rest, variantTag e = variantTag o) →
      typeForValue cfg (.jarr (o :: rest)) = "[]" ++ typeForValue cfg o := by
    intro cfg o rest h
    have hd : ((o :: rest).map variantTag).dedup = [variantTag o] := by
      simp only [List.map_cons]
      exact dedup_eq_single (by intro x hx; simp at hx
                                obtain ⟨e, he, rfl⟩ := hx
                                exact h e (by simp [he]))
    simp only [typeForValue, hd]
    rfl
  refine ⟨fun cfg => by simp [typeForValue], homog, ?_, ?_, ?_, ?_⟩
  · intro cfg elems e₁ e₂ h₁ h₂ hne
    match elems with
    | [] => cases h₁
    | o :: rest =>
      simp only [typeForValue]
      rw [if_neg]
      intro hlen
      exact hne (all_eq_of_dedup_length_one hlen _ (List.mem_map_of_mem _ h₁)
        _ (List.mem_map_of_mem _ h₂))
  · intro cfg elems h
    match elems with
    | [] => simp [typeForValue]
    | o :: rest =>
      have ho : o = JsonValue.jnull := h o (by simp)
      rw [homog cfg o rest (by intro e he
                               rw [h e he, ho]), ho]
      simp only [typeForValue]
      rfl
  · intro cfg
    simp [typeForValue, variantTag, goTypeName]
  · intro cfg
    simp [typeForValue, variantTag, goTypeName]

/-- Witness for C4: the homogeneous clause at a concrete two-element
boolean array. -/
theorem claim_C4_witness :
    typeForValue defaultConfig (.jarr [.jbool true, .jbool false]) =
      "[]" ++ typeForValue defaultConfig (.jbool true) :=
  claim_C4_nested_array_inference.2.1 defaultConfig (.jbool true) [.jbool false]
    (by intro e he
        simp only [List.mem_cons, List.mem_singleton] at he
        rcases he with rfl | rfl | he
        · rfl
        · rfl
        · cases he)

/-- `strings.Split` never returns an empty slice, and neither does its
model. -/
theorem splitUnderscore_ne_nil : ∀ l : List Char, splitUnderscore l ≠ [] := by
  intro l
  cases l with
  | nil => simp [splitUnderscore]
  | cons c rest =>
    simp only [splitUnderscore]
    cases splitUnderscore rest with
    | nil => simp
    | cons part parts =>
      by_cases h : c = '_' <;> simp [h]

/-- Modelled from the wording of claim C6 (and spec §4.1): split the key on
underscores, title-case each part, fully upper-case the last part exactly
when its lower-cased form is one of `id`, `url`, `dob`, concatenate, and
replace invalid identifier runes. -/
def fieldNameSpec (s : String) : String :=
  let parts := (splitUnderscore s.data).map goTitle
  let last := parts.getLastD []
  let fixed :=
    if last.map goToLower = "id".data ∨ last.map goToLower = "url".data ∨
        last.map goToLower = "dob".data then
      parts.dropLast ++ [last.map goToUpper]
    else parts
  String.mk (sanitize fixed.flatten)

/-- Claim C6: with acronym fix-up enabled, `fmtFieldName` realizes exactly
the split / title-case / uppercase-last-iff-in-\x7bid, url, dob\x7d pipeline, and
on the stated examples `user_id ↦ UserID`, `site_url ↦ SiteURL`,
`name ↦ Name`. -/
theorem claim_C6_acronym_fixup :
    (∀ s, fmtFieldName s true = fieldNameSpec s) ∧
    fmtFieldName "user_id" true = "UserID" ∧
    fmtFieldName "site_url" true = "SiteURL" ∧
    fmtFieldName "name" true = "Name" := by
  refine ⟨?_, rfl, rfl, rfl⟩
  intro s
  unfold fmtFieldName fieldNameSpec applyFixup
  cases hgl : ((splitUnderscore s.data).map goTitle).getLast? with
  | none =>
    exact absurd (List.getLast?_eq_none_iff.mp hgl)
      (by simpa using splitUnderscore_ne_nil s.data)
  | some last =>
    simp only [hgl, List.getLastD_eq_getLast?, Option.getD_some, Bool.true_and]
    by_cases hc : last.map goToLower = "id".data ∨
        last.map goToLower = "url".data ∨ last.map goToLower = "dob".data
    · rw [if_pos (by simp only [uppercaseFixups, Bool.or_eq_true, beq_iff_eq]
                     simpa [or_assoc] using hc),
        if_pos hc]
    · rw [if_neg (by simp only [uppercaseFixups, Bool.or_eq_true, beq_iff_eq]
                     simpa [or_assoc] using hc),
        if_neg hc]

/-! ### Character- and string-level lemmas for the field-naming claims -/

/-- `Char.ofNat` round-trips on valid code points. -/
theorem toNat_ofNat_valid {n : Nat} (h : n.isValidChar) :
    (Char.ofNat n).toNat = n := by
  rw [Char.ofNat, dif_pos h]
  rfl

/-- Upper-casing is idempotent. -/
theorem goToUpper_idem (c : Char) : goToUpper (goToUpper c) = goToUpper c := by
  unfold goToUpper
  by_cases h : 97 ≤ c.toNat ∧ c.toNat ≤ 122
  · rw [if_pos h]
    have hv : (Char.ofNat (c.toNat - 32)).toNat = c.toNat - 32 :=
      toNat_ofNat_valid (Or.inl (by omega))
    rw [if_neg (by omega)]
  · rw [if_neg h, if_neg h]

/-- Letters and digits are not `strings.Title` separators. -/
theorem sep_of_alnum {c : Char} (h : (goIsLetter c || goIsDigit c) = true) :
    isSeparator c = false := by
  unfold goIsLetter goIsDigit at h
  unfold isSeparator goIsLetter goIsDigit
  simp only [Bool.or_eq_true, Bool.and_eq_true, decide_eq_true_eq] at h
  rw [if_pos (by omega)]
  simp only [Bool.not_eq_eq_eq_not, Bool.not_false, Bool.or_eq_true, Bool.and_eq_true,
    decide_eq_true_eq, beq_iff_eq]
  omega

/-- The space `strings.Title` starts from is a separator, so the first rune
of each part gets title-cased. -/
theorem isSeparator_space : isSeparator ' ' = true := by decide

/-- The title-casing loop is the identity on alphanumeric text following a
non-separator. -/
theorem goTitleAux_alnum : ∀ (l : List Char) (prev : Char),
    (∀ c ∈ l, (goIsLetter c || goIsDigit c) = true) → isSeparator prev = false →
    goTitleAux prev l = l := by
  intro l
  induction l with
  | nil => intro prev _ _; rfl
  | cons c rest ih =>
    intro prev h hprev
    simp only [goTitleAux, hprev, Bool.false_eq_true, if_false]
    rw [ih c (fun d hd => h d (by simp [hd])) (sep_of_alnum (h c (by simp)))]

/-- Every character the sanitizing scan emits is a letter, a digit, or the
placeholder underscore. -/
theorem sanitize_mem : ∀ {l : List Char} {c : Char}, c ∈ sanitize l →
    goIsLetter c = true ∨ goIsDigit c = true ∨ c = '_' := by
  intro l c h
  match l with
  | [] => cases h
  | c' :: rest =>
    simp only [sanitize, List.mem_cons, List.mem_map] at h
    rcases h with h | ⟨d, _, rfl⟩
    · by_cases hc : goIsLetter c' = true
      · rw [h, if_pos hc]; exact Or.inl hc
      · rw [h, if_neg hc]; right; right; rfl
    · by_cases hd : (goIsLetter d || goIsDigit d) = true
      · rw [if_pos hd]
        rcases (Bool.or_eq_true _ _).mp hd with h' | h'
        exacts [Or.inl h', Or.inr (Or.inl h')]
      · rw [if_neg hd]; right; right; rfl

/-- The first character the sanitizing scan emits is a letter or the
placeholder underscore. -/
theorem sanitize_head : ∀ {l : List Char} {c : Char},
    (sanitize l).head? = some c → goIsLetter c = true ∨ c = '_' := by
  intro l c h
  match l with
  | [] => cases h
  | c' :: rest =>
    simp only [sanitize, List.head?_cons, Option.some.injEq] at h
    by_cases hc : goIsLetter c' = true
    · rw [if_pos hc] at h; exact Or.inl (h ▸ hc)
    · rw [if_neg hc] at h; exact Or.inr h.symm

/-- Sanitizing preserves length. -/
theorem sanitize_length : ∀ l : List Char, (sanitize l).length = l.length := by
  intro l
  match l with
  | [] => rfl
  | c :: rest => simp [sanitize]

/-- Sanitizing is the identity when the first character is a letter and the
rest are alphanumeric. -/
theorem sanitize_alnum_id {c : Char} {rest : List Char}
    (hc : goIsLetter c = true)
    (hr : ∀ d ∈ rest, (goIsLetter d || goIsDigit d) = true) :
    sanitize (c :: rest) = c :: rest := by
  simp only [sanitize, if_pos hc, List.cons.injEq, true_and]
  induction rest with
  | nil => rfl
  | cons d t ih =>
    simp only [List.map_cons, if_pos (hr d (by simp)), List.cons.injEq, true_and]
    exact ih fun e he => hr e (by simp [he])

/-- Splitting then flattening recovers exactly the non-underscore
characters in order. -/
theorem splitUnderscore_flatten : ∀ l : List Char,
    (splitUnderscore l).flatten = l.filter (fun c => c != '_') := by
  intro l
  induction l with
  | nil => rfl
  | cons c rest ih =>
    simp only [splitUnderscore]
    rcases hs : splitUnderscore rest with _ | ⟨part, parts⟩
    · exact absurd hs (splitUnderscore_ne_nil rest)
    · rw [hs] at ih
      by_cases hc : c = '_'
      · subst hc
        simp only [if_pos rfl, List.flatten_cons, List.nil_append, List.filter_cons]
        simp only [bne_self_eq_false, Bool.false_eq_true, if_false]
        simpa using ih
      · simp only [if_neg hc, List.flatten_cons, List.filter_cons]
        have : (c != '_') = true := bne_iff_ne.mpr hc
        simp only [this, if_true]
        simp only [List.flatten_cons] at ih
        simp [ih]

/-- Splitting a list with no underscore yields that single part. -/
theorem splitUnderscore_of_not_mem : ∀ {l : List Char}, '_' ∉ l →
    splitUnderscore l = [l] := by
  intro l h
  induction l with
  | nil => rfl
  | cons c rest ih =>
    simp only [List.mem_cons, not_or] at h
    simp only [splitUnderscore, ih h.2]
    rw [if_neg fun hc => h.1 hc.symm]

/-- The title-casing loop preserves length. -/
theorem goTitleAux_length : ∀ (l : List Char) (prev : Char),
    (goTitleAux prev l).length = l.length := by
  intro l
  induction l with
  | nil => intro _; rfl
  | cons c rest ih => intro prev; simp [goTitleAux, ih]

/-- Title-casing every part preserves the total flattened length. -/
theorem flatten_map_goTitle_length (ps : List (List Char)) :
    ((ps.map goTitle).flatten).length = ps.flatten.length := by
  induction ps with
  | nil => rfl
  | cons p rest ih =>
    simp only [List.map_cons, List.flatten_cons, List.length_append, ih,
      goTitle, goTitleAux_length]

/-- Unfolding `applyFixup` when the part list has a last element. -/
theorem applyFixup_some {b : Bool} {ps : List (List Char)} {last : List Char}
    (hgl : ps.getLast? = some last) :
    applyFixup b ps =
      if (b && uppercaseFixups (last.map goToLower)) = true then
        ps.dropLast ++ [last.map goToUpper]
      else ps := by
  unfold applyFixup
  rw [hgl]

/-- The acronym fix-up preserves the total flattened length. -/
theorem applyFixup_flatten_length (b : Bool) (ps : List (List Char)) :
    ((applyFixup b ps).flatten).length = ps.flatten.length := by
  cases hgl : ps.getLast? with
  | none =>
    unfold applyFixup
    rw [hgl]
  | some last =>
    rw [applyFixup_some hgl]
    by_cases hc : (b && uppercaseFixups (last.map goToLower)) = true
    · rw [if_pos hc]
      obtain ⟨ys, rfl⟩ := List.getLast?_eq_some_iff.mp hgl
      simp [List.dropLast_concat]
    · rw [if_neg hc]

/-- With the fix-up flag off, `applyFixup` changes nothing. -/
theorem applyFixup_false (ps : List (List Char)) : applyFixup false ps = ps := by
  unfold applyFixup
  cases ps.getLast? <;> simp

/-- Every title-cased part is empty or starts with an upper-cased
character. -/
theorem goTitle_shape (part : List Char) :
    goTitle part = [] ∨ ∃ d r, goTitle part = goToUpper d :: r := by
  cases part with
  | nil => exact Or.inl rfl
  | cons c r =>
    right
    exact ⟨c, goTitleAux c r, by simp [goTitle, goTitleAux, isSeparator_space]⟩

/-- The acronym fix-up preserves the head-is-upper-cased shape of the
parts. -/
theorem applyFixup_shape {b : Bool} {ps : List (List Char)}
    (h : ∀ p ∈ ps, p = [] ∨ ∃ d r, p = goToUpper d :: r) :
    ∀ p ∈ applyFixup b ps, p = [] ∨ ∃ d r, p = goToUpper d :: r := by
  cases hgl : ps.getLast? with
  | none =>
    unfold applyFixup
    rw [hgl]
    exact h
  | some last =>
    rw [applyFixup_some hgl]
    by_cases hc : (b && uppercaseFixups (last.map goToLower)) = true
    · rw [if_pos hc]
      intro p hp
      rcases List.mem_append.mp hp with hp | hp
      · exact h p ((List.dropLast_sublist ps).subset hp)
      · have hpl : p = last.map goToUpper := by simpa using hp
        have hlast : last ∈ ps := by
          obtain ⟨ys, rfl⟩ := List.getLast?_eq_some_iff.mp hgl
          simp
        rcases h last hlast with rfl | ⟨d, r, rfl⟩
        · exact Or.inl (by simp [hpl])
        · right
          refine ⟨goToUpper d, r.map goToUpper, ?_⟩
          rw [hpl]
          simp [goToUpper_idem]
    · rw [if_neg hc]
      exact h

/-- Flattening parts of that shape yields nothing or an upper-cased
head. -/
theorem flatten_shape : ∀ {ps : List (List Char)},
    (∀ p ∈ ps, p = [] ∨ ∃ d r, p = goToUpper d :: r) →
    ps.flatten = [] ∨ ∃ d r, ps.flatten = goToUpper d :: r := by
  intro ps h
  induction ps with
  | nil => exact Or.inl rfl
  | cons p rest ih =>
    rcases h p (by simp) with rfl | ⟨d, r, rfl⟩
    · simpa using ih fun q hq => h q (by simp [hq])
    · exact Or.inr ⟨d, r ++ rest.flatten, by simp⟩

/-- The first character of any `fmtFieldName` result is a fixed point of
upper-casing. -/
theorem fmtFieldName_head_fixed {s : String} {b : Bool} {c : Char}
    (h : (fmtFieldName s b).data.head? = some c) : goToUpper c = c := by
  have hshape := flatten_shape (@applyFixup_shape b
    ((splitUnderscore s.data).map goTitle)
    (by intro p hp
        obtain ⟨q, _, rfl⟩ := List.mem_map.mp hp
        exact goTitle_shape q))
  rcases hshape with hflat | ⟨d, r, hflat⟩
  · have : (fmtFieldName s b).data = [] := by
      simp only [fmtFieldName, hflat]
      rfl
    rw [this] at h
    cases h
  · have : (fmtFieldName s b).data = sanitize (goToUpper d :: r) := by
      simp only [fmtFieldName, hflat]
    rw [this] at h
    simp only [sanitize, List.head?_cons, Option.some.injEq] at h
    by_cases hc : goIsLetter (goToUpper d) = true
    · rw [if_pos hc] at h
      rw [← h, goToUpper_idem]
    · rw [if_neg hc] at h
      rw [← h]
      decide

/-- Counterexample to claim C5 as stated: the key `"_"` is a non-empty
input, yet `fmtFieldName` returns the empty string for it — splitting on
the underscore leaves only empty parts, so nothing survives to the
sanitizing scan. -/
theorem claim_C5_counterexample :
    ("_" : String) ≠ "" ∧ fmtFieldName "_" true = "" := by
  exact ⟨by decide, by decide⟩

/-- Claim C5 as amended: every character of a `fmtFieldName` result is a
letter, a digit, or the placeholder underscore, and its first character is
a letter or the placeholder; the result is non-empty whenever the key
contains at least one character other than `'_'` (keys consisting solely of
underscores — and only those non-empty keys — collapse to the empty name,
since the splitting step consumes every underscore). -/
theorem claim_C5_amended : ∀ (s : String) (fixUpper : Bool),
    (∀ c ∈ (fmtFieldName s fixUpper).data,
      goIsLetter c = true ∨ goIsDigit c = true ∨ c = '_') ∧
    (∀ c, (fmtFieldName s fixUpper).data.head? = some c →
      goIsLetter c = true ∨ c = '_') ∧
    ((∃ c ∈ s.data, c ≠ '_') → fmtFieldName s fixUpper ≠ "") := by
  intro s b
  refine ⟨fun c hc => sanitize_mem hc, fun c hc => sanitize_head hc, ?_⟩
  rintro ⟨c, hcs, hc⟩ heq
  have hdata : (fmtFieldName s b).data = [] := by rw [heq]
  have hlen : (fmtFieldName s b).data.length =
      (s.data.filter (fun c => c != '_')).length := by
    show (sanitize ((applyFixup b ((splitUnderscore s.data).map goTitle)).flatten)).length = _
    rw [sanitize_length, applyFixup_flatten_length, flatten_map_goTitle_length,
      splitUnderscore_flatten]
  have hmem : c ∈ s.data.filter (fun c => c != '_') :=
    List.mem_filter.mpr ⟨hcs, bne_iff_ne.mpr hc⟩
  rw [hdata] at hlen
  exact List.ne_nil_of_mem hmem (List.length_eq_zero.mp hlen.symm)

/-- Witness for the amended C5: the all-placeholder key `"--"` yields a
non-empty name. -/
theorem claim_C5_witness : fmtFieldName "--" true ≠ "" :=
  (claim_C5_amended "--" true).2.2 ⟨'-', by decide, by decide⟩

/-- `fmtFieldName` with the fix-up disabled is the identity on any of its
own outputs that contain no placeholder underscore: such an output consists
of alphanumeric runes whose head is an upper-cased letter, so splitting,
title-casing and sanitizing all leave it unchanged. -/
theorem fmtFieldName_of_clean {y : String}
    (hd : ∀ c ∈ y.data, (goIsLetter c || goIsDigit c) = true)
    (hh : ∀ c, y.data.head? = some c → goIsLetter c = true ∧ goToUpper c = c)
    (hu : '_' ∉ y.data) :
    fmtFieldName y false = y := by
  show String.mk (sanitize ((applyFixup false
    ((splitUnderscore y.data).map goTitle)).flatten)) = y
  rw [splitUnderscore_of_not_mem hu, applyFixup_false]
  cases hyd : y.data with
  | nil =>
    show String.mk (sanitize ((List.map goTitle [[]]).flatten)) = String.mk y.data
    rw [hyd]
    rfl
  | cons c rest =>
    have hc : goIsLetter c = true := (hh c (by rw [hyd]; rfl)).1
    have hcu : goToUpper c = c := (hh c (by rw [hyd]; rfl)).2
    have hrest : ∀ d ∈ rest, (goIsLetter d || goIsDigit d) = true := by
      intro d hdm
      exact hd d (by rw [hyd]; exact List.mem_cons_of_mem _ hdm)
    have htitle : goTitle (c :: rest) = c :: rest := by
      show goTitleAux ' ' (c :: rest) = c :: rest
      simp only [goTitleAux, isSeparator_space, if_true, hcu]
      rw [goTitleAux_alnum rest c hrest (sep_of_alnum (by simp [hc]))]
    show String.mk (sanitize ((List.map goTitle [c :: rest]).flatten)) = String.mk y.data
    rw [hyd]
    simp only [List.map_cons, List.map_nil, List.flatten_cons, List.flatten_nil,
      List.append_nil, htitle]
    rw [sanitize_alnum_id hc hrest]

/-- Counterexample to claim C8 as stated: `fmtFieldName` with fix-up
disabled is not idempotent; the key `"-"` maps to `"_"` (the dash is
sanitized to a placeholder), and a second application splits on that
placeholder and returns `""`. -/
theorem claim_C8_counterexample :
    fmtFieldName (fmtFieldName "-" false) false ≠ fmtFieldName "-" false := by
  decide

/-- Claim C8 as amended: the structural transformation is idempotent on
every key whose first pass introduces no placeholder underscore; a
placeholder in the output is re-interpreted as a separator by the second
pass (e.g. `"-" ↦ "_" ↦ ""`), which is the only source of
non-idempotence. -/
theorem claim_C8_amended : ∀ s : String, '_' ∉ (fmtFieldName s false).data →
    fmtFieldName (fmtFieldName s false) false = fmtFieldName s false := by
  intro s hu
  apply fmtFieldName_of_clean
  · intro c hc
    rcases sanitize_mem hc with h | h | h
    · simp [h]
    · simp [h]
    · exact absurd (h ▸ hc) hu
  · intro c hc
    have hne : c ≠ '_' := by
      intro hceq
      exact hu (hceq ▸ List.mem_of_mem_head? hc)
    rcases sanitize_head hc with h | h
    · exact ⟨h, fmtFieldName_head_fixed hc⟩
    · exact absurd h hne
  · exact hu

/-- Witness for the amended C8: `"foo"` maps to `"Foo"`, which is a fixed
point of the second application. -/
theorem claim_C8_witness :
    fmtFieldName (fmtFieldName "foo" false) false = fmtFieldName "foo" false :=
  claim_C8_amended "foo" (by decide)

/-! ### Lemmas for determinism (C3) and depth-irrelevance (C10) -/

theorem lookup_eq_of_perm {l₁ l₂ : List (String × JsonValue)} (hp : l₁.Perm l₂) :
    (l₁.map Prod.fst).Nodup → ∀ k, l₁.lookup k = l₂.lookup k := by
  induction hp with
  | nil => intro _ k; rfl
  | cons a h ih =>
    intro hn k
    obtain ⟨ka, va⟩ := a
    simp only [List.lookup_cons]
    cases hke : k == ka
    · exact ih (by simpa using (List.nodup_cons.mp (by simpa using hn)).2) k
    · rfl
  | swap x y t =>
    intro hn k
    obtain ⟨kx, vx⟩ := x
    obtain ⟨ky, vy⟩ := y
    have hne : ky ≠ kx := by
      simp only [List.map_cons, List.nodup_cons, List.mem_cons] at hn
      exact fun hc => hn.1 (Or.inl hc)
    simp only [List.lookup_cons]
    cases hky : k == ky <;> cases hkx : k == kx
    · rfl
    · rfl
    · rfl
    · exact absurd ((beq_iff_eq.mp hky).symm.trans (beq_iff_eq.mp hkx)) hne
  | trans p₁ p₂ ih₁ ih₂ =>
    intro hn k
    exact (ih₁ hn k).trans (ih₂ ((p₁.map Prod.fst).nodup hn) k)


/-- Non-dependent unfolding of the `genFields` cons case (the proof-carrying
match used for termination is replaced by a plain match). -/
theorem genFields_cons_eq (cfg : Config) (key : String) (rest : List String)
    (obj : List (String × JsonValue)) (d : Nat) :
    genFields cfg (key :: rest) obj d =
      (match obj.lookup key with
       | none => ""
       | some value =>
         "\n" ++ fmtFieldName key true ++ " " ++
           (match value with
            | JsonValue.jobj m => generateTypes cfg m (d + 1) ++ "\x7d"
            | _ => typeForValue cfg value) ++ tagString cfg key) ++
      genFields cfg rest obj d := by
  simp only [genFields]
  congr 1
  split
  · rename_i heq
    rw [heq]
  · rename_i value heq
    split
    · rename_i m hm
      rw [heq]
    · rename_i hne
      rw [heq]
      split
      · rename_i habs
        cases habs
      · rename_i xscr value₂ heq₂
        injection heq₂ with hv
        subst hv
        split
        · rename_i f
          exact (hne f heq rfl (proof_irrel_heq _ _)).elim
        · rfl

theorem genFields_congr (cfg : Config) {l₁ l₂ : List (String × JsonValue)}
    (hl : ∀ k, l₁.lookup k = l₂.lookup k) :
    ∀ (keys : List String) (d : Nat),
      genFields cfg keys l₁ d = genFields cfg keys l₂ d := by
  intro keys
  induction keys with
  | nil => intro d; simp [genFields]
  | cons key rest ih =>
    intro d
    rw [genFields_cons_eq, genFields_cons_eq, hl key, ih d]

theorem generateTypes_perm (cfg : Config) {l₁ l₂ : List (String × JsonValue)}
    (hp : l₁.Perm l₂) (hn : (l₁.map Prod.fst).Nodup) (d : Nat) :
    generateTypes cfg l₁ d = generateTypes cfg l₂ d := by
  have hkeys : sortStrings (l₁.map Prod.fst) = sortStrings (l₂.map Prod.fst) := by
    have hperm : (sortStrings (l₁.map Prod.fst)).Perm (sortStrings (l₂.map Prod.fst)) :=
      (List.perm_insertionSort _ _).trans
        ((hp.map Prod.fst).trans (List.perm_insertionSort _ _).symm)
    exact List.eq_of_perm_of_sorted hperm
      (List.sorted_insertionSort _ _) (List.sorted_insertionSort _ _)
  simp only [generateTypes]
  rw [hkeys]
  congr 1
  exact genFields_congr cfg (lookup_eq_of_perm hp hn) _ d

/-- Claim C3: the rendered fields follow the lexicographically sorted key
order, and the generated text depends only on the key-to-value mapping:
permuting the entries of an object (its decoder iteration order) with
duplicate-free keys leaves the output unchanged. -/
theorem claim_C3_sorted_deterministic :
    (∀ (cfg : Config) (l₁ l₂ : List (String × JsonValue)) (d : Nat),
      l₁.Perm l₂ → (l₁.map Prod.fst).Nodup →
      generateTypes cfg l₁ d = generateTypes cfg l₂ d) ∧
    (∀ obj : List (String × JsonValue),
      List.Sorted (fun a b => a ≤ b) (sortStrings (obj.map Prod.fst))) := by
  constructor
  · intro cfg l₁ l₂ d hp hn
    exact generateTypes_perm cfg hp hn d
  · intro obj
    exact List.sorted_insertionSort _ _

/-- Witness for C3: two iteration orders of the mapping
`\x7b"a": "x", "b": 1\x7d` produce the same struct text. -/
theorem claim_C3_witness :
    generateTypes defaultConfig [("b", .jnum 1), ("a", .jstr "x")] 0 =
      generateTypes defaultConfig [("a", .jstr "x"), ("b", .jnum 1)] 0 :=
  claim_C3_sorted_deterministic.1 defaultConfig _ _ 0
    (List.Perm.swap ("a", JsonValue.jstr "x") ("b", JsonValue.jnum 1) [])
    (by decide)

/-- The per-field loop ignores the depth parameter: by strong induction on
the size of the object, two runs at different depths agree. -/
theorem genFields_depth_aux : ∀ (n : Nat) (obj : List (String × JsonValue)),
    sizeOf obj ≤ n → ∀ (cfg : Config) (keys : List String) (d₁ d₂ : Nat),
      genFields cfg keys obj d₁ = genFields cfg keys obj d₂ := by
  intro n
  induction n using Nat.strong_induction_on with
  | _ n ih =>
    intro obj hobj cfg keys d₁ d₂
    induction keys with
    | nil => simp [genFields]
    | cons key rest ihk =>
      rw [genFields_cons_eq, genFields_cons_eq, ihk]
      congr 1
      cases hlk : obj.lookup key with
      | none => rfl
      | some value =>
        cases value with
        | jobj m =>
          have hm : sizeOf m < n := by
            have := sizeOf_lt_of_lookup hlk
            simp only [JsonValue.jobj.sizeOf_spec] at this
            omega
          simp only [generateTypes]
          rw [ih (sizeOf m) hm m le_rfl cfg (sortStrings (List.map Prod.fst m))
            (d₁ + 1) (d₂ + 1)]
        | jnull => rfl
        | jbool b => rfl
        | jnum x => rfl
        | jstr s => rfl
        | jarr elems => rfl

/-- `generateTypes` ignores its depth parameter. -/
theorem generateTypes_depth (cfg : Config) (obj : List (String × JsonValue))
    (d₁ d₂ : Nat) : generateTypes cfg obj d₁ = generateTypes cfg obj d₂ := by
  simp only [generateTypes]
  congr 1
  exact genFields_depth_aux (sizeOf obj) obj le_rfl cfg _ d₁ d₂

/-- Claim C10: the generated text does not depend on the depth parameter,
and in particular the nested-object path of `typeForValue`, which restarts
the depth at `0`, produces the same text as the `depth+1` recursion inside
`generateTypes`. -/
theorem claim_C10_depth_irrelevant :
    (∀ (cfg : Config) (obj : List (String × JsonValue)) (d₁ d₂ : Nat),
      generateTypes cfg obj d₁ = generateTypes cfg obj d₂) ∧
    (∀ (cfg : Config) (m : List (String × JsonValue)) (d : Nat),
      typeForValue cfg (.jobj m) = generateTypes cfg m (d + 1) ++ "\x7d") := by
  refine ⟨fun cfg obj d₁ d₂ => generateTypes_depth cfg obj d₁ d₂, fun cfg m d => ?_⟩
  simp only [typeForValue]
  rw [generateTypes_depth cfg m 0 (d + 1)]

end GoJson
